import Mathlib

/-!
Verification development for the GTFS zip-archive modification tool
(`src/main.py`).  The Python program is shallowly embedded: CSV parsing and
writing (Python's `csv.reader` / `csv.writer` with comma delimiter, `"`
quote character and minimal quoting), `str.splitlines`, the regex-based
quote escaping, the per-file transformation registry built by `compose`,
and the archive pipeline `modify_zip_file`.  Machine-level effects (prints)
are modelled as returned report values; Python exceptions are modelled with
`Except`.
-/

namespace GtfsMod

/-! ## Python `str.splitlines` -/

/-- The line-break characters recognised by Python's `str.splitlines`. -/
def isLB (c : Char) : Bool :=
  c == '\n' || c == '\r' || c == '\x0b' || c == '\x0c' ||
  c == '\x1c' || c == '\x1d' || c == '\x1e' || c == '\x85' ||
  c == '\u2028' || c == '\u2029'

/-- Model of `str.splitlines`: accumulate characters of the current line,
emit a line at each break character, treating `"\r\n"` as a single break
(the flag records a pending `'\r'` whose following `'\n'` is consumed
silently).  A trailing partial line is emitted only when nonempty (Python
semantics: `"a\n".splitlines() = ["a"]`, `"".splitlines() = []`). -/
def splitlinesAux : List Char → List Char → Bool → List (List Char)
  | [], acc, _ => if acc.isEmpty then [] else [acc]
  | c :: rest, acc, cr =>
    if cr && c = '\n' then splitlinesAux rest acc false
    else if c = '\r' then acc :: splitlinesAux rest [] true
    else if isLB c then acc :: splitlinesAux rest [] false
    else splitlinesAux rest (acc ++ [c]) false

def splitlines (s : String) : List String :=
  (splitlinesAux s.data [] false).map String.mk

/-! ## Python `csv` module (reader and writer, as configured in `main.py`)

`parse_csv` feeds `csv.reader` the list of lines produced by
`splitlines` (so the lines carry no terminators); `write_csv` uses
`csv.writer` with `QUOTE_MINIMAL` and the default `"\r\n"` line
terminator.  The reader is the cpython state machine restricted to
`delimiter=','`, `quotechar='"'`, `doublequote=True`, `strict=False`:
a blank line yields an empty row; a quoted field left open at the end of a
line continues on the next line (the stripped terminator is lost); after a
closing quote further characters are appended to the field. -/

inductive Mode where
  | startField
  | inField
  | inQuoted
  | quoteInQuoted
deriving DecidableEq

inductive LineRes where
  | done (row : List String)
  | cont (row : List String) (field : List Char)
deriving Inhabited

/-- One line of the cpython `csv.reader` state machine. -/
def runLine : Mode → List String → List Char → List Char → LineRes
  | .inQuoted, row, field, [] => .cont row field
  | .startField, row, field, [] => .done (row ++ [String.mk field])
  | .inField, row, field, [] => .done (row ++ [String.mk field])
  | .quoteInQuoted, row, field, [] => .done (row ++ [String.mk field])
  | .startField, row, field, c :: cs =>
    if c = '"' then runLine .inQuoted row field cs
    else if c = ',' then runLine .startField (row ++ [String.mk field]) [] cs
    else runLine .inField row (field ++ [c]) cs
  | .inField, row, field, c :: cs =>
    if c = ',' then runLine .startField (row ++ [String.mk field]) [] cs
    else runLine .inField row (field ++ [c]) cs
  | .inQuoted, row, field, c :: cs =>
    if c = '"' then runLine .quoteInQuoted row field cs
    else runLine .inQuoted row (field ++ [c]) cs
  | .quoteInQuoted, row, field, c :: cs =>
    if c = '"' then runLine .inQuoted row (field ++ ['"']) cs
    else if c = ',' then runLine .startField (row ++ [String.mk field]) [] cs
    else runLine .inField row (field ++ [c]) cs

/-- Fold `runLine` over the lines; the optional state carries a row and
field of a quoted field that is still open from a previous line.  At end
of input an open field is closed (non-strict reader). -/
def parseAux : List (List Char) → Option (List String × List Char) → List (List String)
  | [], none => []
  | [], some (row, field) => [row ++ [String.mk field]]
  | l :: ls, none =>
    if l.isEmpty then [] :: parseAux ls none
    else
      match runLine .startField [] [] l with
      | .done r => r :: parseAux ls none
      | .cont row field => parseAux ls (some (row, field))
  | l :: ls, some (row, field) =>
    match runLine .inQuoted row field l with
    | .done r => r :: parseAux ls none
    | .cont row' field' => parseAux ls (some (row', field'))

/-- `parse_csv` from `main.py`: read all rows of the CSV input lines. -/
def parse_csv (lines : List String) : List (List String) :=
  parseAux (lines.map String.data) none

/-- `csv.writer` quotes a field (with `QUOTE_MINIMAL`) iff it contains the
delimiter, the quote character, or a character of the line terminator. -/
def needsQuote (f : String) : Bool :=
  f.data.any (fun c => c == ',' || c == '"' || c == '\r' || c == '\n')

/-- Double each quote character (the CSV escape inside a quoted field). -/
def escQ : List Char → List Char
  | [] => []
  | c :: cs => if c = '"' then '"' :: '"' :: escQ cs else c :: escQ cs

def quoteField (f : String) : List Char :=
  if needsQuote f then '"' :: (escQ f.data ++ ['"']) else f.data

def joinComma : List (List Char) → List Char
  | [] => []
  | [x] => x
  | x :: xs => x ++ ',' :: joinComma xs

/-- One row as written by `csv.writer`.  cpython forces quoting of a record
consisting of a single empty field (so that it is not read back as a blank
line). -/
def writeRow (r : List String) : List Char :=
  if r = [""] then ['"', '"']
  else joinComma (r.map quoteField)

/-- `write_csv` from `main.py`: each row followed by the default `"\r\n"`
line terminator. -/
def write_csv (rows : List (List String)) : String :=
  String.mk ((rows.map (fun r => writeRow r ++ ['\r', '\n'])).flatten)

/-! ## Errors (Python exceptions) -/

inductive Err where
  /-- `UnicodeDecodeError` raised while decoding an entry as UTF-8. -/
  | decodeError
  /-- `ZeroDivisionError` from `100 * ct / len(data[1:])` with no data rows. -/
  | zeroDivision
  /-- `ValueError('Expected the … column to be missing.')`. -/
  | existingColumn (name : String)
  /-- `ValueError('The value … is not one of the expected values …')`. -/
  | fieldValue (value : String)
  /-- `IndexError` from indexing a list out of range. -/
  | indexError
deriving DecidableEq

/-! ## `add_bikes_allowed` and `change_location_type` -/

/-- Python `==` between a `str` and an `int` is always `False`; `main.py`
line 268 compares the string field `value` with the integer literal `0`. -/
def pyStrEqInt (_s : String) (_n : Int) : Bool := false

def possible_values : List String := ["", "0", "1", "2"]

/-- The `for row in data[1:]` loop of `add_bikes_allowed` when the column
exists and `exists_ok` holds: validate each value against
`possible_values` (raising `ValueError` at the first offender), and set the
cell to `"1"` when `value == 0` — the string/int comparison from the
source.  Returns the processed rows and the replacement count. -/
def bikesLoop (idx : Nat) : List (List String) → Except Err (List (List String) × Nat)
  | [] => .ok ([], 0)
  | row :: rest =>
    match row.get? idx with
    | none => .error .indexError
    | some v =>
      if v ∈ possible_values then
        let p := if pyStrEqInt v 0 then (row.set idx "1", 1) else (row, 0)
        match bikesLoop idx rest with
        | .error e => .error e
        | .ok (rest', ct) => .ok (p.1 :: rest', p.2 + ct)
      else .error (.fieldValue v)

/-- `add_bikes_allowed` from `main.py`.  The returned pair is the CSV
output together with the reported statistics `(replaced_ct, len(data[1:]))`
when the column already existed (`None` when the column was added).  The
percentage print `100 * replaced_ct / len(data[1:])` raises
`ZeroDivisionError` when there are no data rows. -/
def add_bikes_allowed (trips_txt : String) (exists_ok : Bool := false) :
    Except Err (String × Option (Nat × Nat)) :=
  match parse_csv (splitlines trips_txt) with
  | [] => .error .indexError
  | header :: rows =>
    if "bikes_allowed" ∈ header then
      if exists_ok then
        match bikesLoop (header.indexOf "bikes_allowed") rows with
        | .error e => .error e
        | .ok (rows', ct) =>
          if rows.length = 0 then .error .zeroDivision
          else .ok (write_csv (header :: rows'), some (ct, rows.length))
      else .error (.existingColumn "bikes_allowed")
    else
      .ok (write_csv ((header ++ ["bikes_allowed"]) :: rows.map (fun r => r ++ ["1"])),
           none)

/-- The `for row in data[1:]` loop of `change_location_type`: replace
`"2"` by `"0"` in the `location_type` column, counting replacements. -/
def locLoop (idx : Nat) : List (List String) → Except Err (List (List String) × Nat)
  | [] => .ok ([], 0)
  | row :: rest =>
    match row.get? idx with
    | none => .error .indexError
    | some v =>
      let p := if v = "2" then (row.set idx "0", 1) else (row, 0)
      match locLoop idx rest with
      | .error e => .error e
      | .ok (rest', ct) => .ok (p.1 :: rest', p.2 + ct)

/-- `change_location_type` from `main.py`: same result/report convention as
`add_bikes_allowed`; the percentage print raises `ZeroDivisionError` when
the column exists but there are no data rows. -/
def change_location_type (stops_txt : String) :
    Except Err (String × Option (Nat × Nat)) :=
  match parse_csv (splitlines stops_txt) with
  | [] => .error .indexError
  | header :: rows =>
    if "location_type" ∈ header then
      match locLoop (header.indexOf "location_type") rows with
      | .error e => .error e
      | .ok (rows', ct) =>
        if rows.length = 0 then .error .zeroDivision
        else .ok (write_csv (header :: rows'), some (ct, rows.length))
    else .ok (write_csv (header :: rows), none)

/-- The reported percentage `100 * ct / total` (Python float division is
exact on the values exercised here). -/
def percentage (ct total : Nat) : ℚ := (100 * ct : ℚ) / total

/-! ## `escape_double_quotes` -/

/-- Character class `[^,^"^\n]` of the source regex: note that it literally
excludes the caret as well. -/
def okCh (c : Char) : Bool :=
  !(c == ',' || c == '^' || c == '"' || c == '\n')

/-- `re.subn(r'([^,^"^\n])"([^,^"^\n])', r'\1""\2', …)`: leftmost,
non-overlapping matching; a successful match consumes the character before
and after the quote and scanning resumes after the match. -/
def escScan : List Char → List Char × Nat
  | c1 :: c2 :: c3 :: rest =>
    if c2 = '"' && okCh c1 && okCh c3 then
      let p := escScan rest
      (c1 :: '"' :: '"' :: c3 :: p.1, p.2 + 1)
    else
      let p := escScan (c2 :: c3 :: rest)
      (c1 :: p.1, p.2)
  | l => (l, 0)

/-- `escape_double_quotes` from `main.py`: the repaired text together with
the replacement count reported by `re.subn`. -/
def escape_double_quotes (file_content : String) : String × Nat :=
  let p := escScan file_content.data
  (String.mk p.1, p.2)

/-! ## UTF-8 (Python strict codec) and universal newlines -/

/-- Encode one scalar value as UTF-8 bytes. -/
def utf8EncodeChar (c : Char) : List Nat :=
  let n := c.toNat
  if n < 0x80 then [n]
  else if n < 0x800 then [0xC0 + n / 0x40, 0x80 + n % 0x40]
  else if n < 0x10000 then
    [0xE0 + n / 0x1000, 0x80 + (n / 0x40) % 0x40, 0x80 + n % 0x40]
  else
    [0xF0 + n / 0x40000, 0x80 + (n / 0x1000) % 0x40,
     0x80 + (n / 0x40) % 0x40, 0x80 + n % 0x40]

def utf8Encode (s : String) : List Nat :=
  (s.data.map utf8EncodeChar).flatten

def contByte (b : Nat) : Bool := 0x80 ≤ b && b ≤ 0xBF

/-- Strict UTF-8 decoding (rejecting overlong forms, surrogates and values
above `U+10FFFF`, like Python's `utf-8` codec in its default strict mode). -/
def utf8Decode? : List Nat → Option (List Char)
  | [] => some []
  | b :: rest =>
    if b < 0x80 then (utf8Decode? rest).map (fun cs => Char.ofNat b :: cs)
    else if b < 0xC2 then none
    else if b ≤ 0xDF then
      match rest with
      | b2 :: rest2 =>
        if contByte b2 then
          (utf8Decode? rest2).map
            (fun cs => Char.ofNat ((b - 0xC0) * 0x40 + (b2 - 0x80)) :: cs)
        else none
      | [] => none
    else if b ≤ 0xEF then
      match rest with
      | b2 :: b3 :: rest3 =>
        if (if b = 0xE0 then 0xA0 ≤ b2 && b2 ≤ 0xBF
            else if b = 0xED then 0x80 ≤ b2 && b2 ≤ 0x9F
            else contByte b2) && contByte b3 then
          (utf8Decode? rest3).map
            (fun cs =>
              Char.ofNat ((b - 0xE0) * 0x1000 + (b2 - 0x80) * 0x40 + (b3 - 0x80)) :: cs)
        else none
      | _ => none
    else if b ≤ 0xF4 then
      match rest with
      | b2 :: b3 :: b4 :: rest4 =>
        if (if b = 0xF0 then 0x90 ≤ b2 && b2 ≤ 0xBF
            else if b = 0xF4 then 0x80 ≤ b2 && b2 ≤ 0x8F
            else contByte b2) && contByte b3 && contByte b4 then
          (utf8Decode? rest4).map
            (fun cs =>
              Char.ofNat ((b - 0xF0) * 0x40000 + (b2 - 0x80) * 0x1000 +
                (b3 - 0x80) * 0x40 + (b4 - 0x80)) :: cs)
        else none
      | _ => none
    else none

/-- Universal-newline translation performed by `TextIOWrapper` on read:
`"\r\n"` and `"\r"` become `"\n"`. -/
def univNL : List Char → List Char
  | [] => []
  | '\r' :: '\n' :: rest => '\n' :: univNL rest
  | '\r' :: rest => '\n' :: univNL rest
  | c :: rest => c :: univNL rest

/-- `TextIOWrapper(infile, 'utf-8').read()`: strict UTF-8 decoding followed
by universal-newline translation; `none` models `UnicodeDecodeError`. -/
def decodeNL (bs : List Nat) : Option String :=
  (utf8Decode? bs).map (fun cs => String.mk (univNL cs))

/-! ## Registry (`compose`) and pipeline (`modify_zip_file`) -/

/-- A registered content transformation: Python functions of type
`Callable[[str], str | None]`, which may also raise. -/
def Mod : Type := String → Except Err (Option String)

/-- The `modifications` dict: Python dicts are insertion-ordered maps with
unique keys, modelled as association lists. -/
def Mods : Type := List (String × Mod)

def findMod : Mods → String → Option Mod
  | [], _ => none
  | (k, f) :: rest, name =>
    if k = name then some f else findMod rest name

/-- Python dict item assignment: replace in place, or append a new key. -/
def assign : Mods → String → Mod → Mods
  | [], name, f => [(name, f)]
  | (k, g) :: rest, name, f =>
    if k = name then (k, f) :: rest else (k, g) :: assign rest name f

/-- The inner `helper` of `compose`: run `f1`; on `None` stop, otherwise
run `f2` on the result (exceptions propagate). -/
def helper (f1 f2 : Mod) : Mod := fun c =>
  match f1 c with
  | .error e => .error e
  | .ok none => .ok none
  | .ok (some t) => f2 t

/-- `compose` from `main.py`: append `fn` to the chain registered for
`name`, or start a new chain. -/
def compose (mods : Mods) (name : String) (fn : Mod) : Mods :=
  match findMod mods name with
  | some first => assign mods name (helper first fn)
  | none => assign mods name fn

/-- The `lambda file_content: None` that `main` assigns for `--delete`. -/
def delete_fun : Mod := fun _ => .ok none

/-- A zip entry: name, raw bytes, and the `compress_type` metadata. -/
structure Entry where
  filename : String
  bytes : List Nat
  compressType : Nat
deriving DecidableEq

/-- The body of the `for zipinfo in source_zf.infolist()` loop: copy an
unregistered entry verbatim (with `compress_type=8`), otherwise decode,
run the chain, and either drop the entry (`None`) or write the UTF-8
encoding of the result (again with `compress_type=8`). -/
def entryStep (mods : Mods) (e : Entry) : Except Err (Option Entry) :=
  match findMod mods e.filename with
  | none => .ok (some ⟨e.filename, e.bytes, 8⟩)
  | some f =>
    match decodeNL e.bytes with
    | none => .error .decodeError
    | some s =>
      match f s with
      | .error err => .error err
      | .ok none => .ok none
      | .ok (some t) => .ok (some ⟨e.filename, utf8Encode t, 8⟩)

/-- `modify_zip_file` from `main.py`: process the source entries in order;
any exception aborts the whole run. -/
def modify_zip_file (mods : Mods) : List Entry → Except Err (List Entry)
  | [] => .ok []
  | e :: rest =>
    match entryStep mods e with
    | .error err => .error err
    | .ok none => modify_zip_file mods rest
    | .ok (some e') =>
      match modify_zip_file mods rest with
      | .error err => .error err
      | .ok tl => .ok (e' :: tl)

/-- The per-entry outcome under a successful run. -/
def stepO (mods : Mods) (e : Entry) : Option Entry :=
  match entryStep mods e with
  | .ok o => o
  | .error _ => none

/-! ## CSV writer / reader round trip -/

theorem mk_data (s : String) : String.mk s.data = s := rfl

theorem data_mk (l : List Char) : (String.mk l).data = l := rfl

theorem splitlinesAux_cons_safe (c : Char) (l acc : List Char)
    (hc : isLB c = false) :
    splitlinesAux (c :: l) acc false = splitlinesAux l (acc ++ [c]) false := by
  have h1 : c ≠ '\r' := by
    intro h; rw [h] at hc; simp [isLB] at hc
  simp [splitlinesAux, h1, hc]

theorem splitlinesAux_crlf (l acc : List Char) :
    splitlinesAux ('\r' :: '\n' :: l) acc false = acc :: splitlinesAux l [] false := by
  simp [splitlinesAux]

theorem splitlinesAux_append (cs : List Char) (rest : List Char)
    (h : ∀ c ∈ cs, isLB c = false) :
    ∀ acc, splitlinesAux (cs ++ '\r' :: '\n' :: rest) acc false =
      (acc ++ cs) :: splitlinesAux rest [] false := by
  induction cs with
  | nil => intro acc; simpa using splitlinesAux_crlf rest acc
  | cons c cs ih =>
    intro acc
    have hc : isLB c = false := h c (List.mem_cons_self c cs)
    rw [List.cons_append, splitlinesAux_cons_safe c _ acc hc,
      ih (fun x hx => h x (List.mem_cons_of_mem c hx)) (acc ++ [c])]
    simp

theorem escQ_mem {c : Char} : ∀ {l : List Char}, c ∈ escQ l → c ∈ l ∨ c = '"' := by
  intro l
  induction l with
  | nil => intro h; simp [escQ] at h
  | cons d l ih =>
    intro h
    by_cases hd : d = '"'
    · subst hd
      simp only [escQ, if_pos rfl] at h
      rcases List.mem_cons.mp h with rfl | h
      · exact Or.inr rfl
      · rcases List.mem_cons.mp h with rfl | h
        · exact Or.inr rfl
        · rcases ih h with h2 | h2
          · exact Or.inl (List.mem_cons_of_mem _ h2)
          · exact Or.inr h2
    · simp only [escQ, if_neg hd] at h
      rcases List.mem_cons.mp h with rfl | h
      · exact Or.inl (List.mem_cons_self c l)
      · rcases ih h with h2 | h2
        · exact Or.inl (List.mem_cons_of_mem _ h2)
        · exact Or.inr h2

theorem quoteField_mem {c : Char} {f : String} (h : c ∈ quoteField f) :
    c ∈ f.data ∨ c = '"' := by
  unfold quoteField at h
  split at h
  · rcases List.mem_cons.mp h with rfl | h
    · exact Or.inr rfl
    · rcases List.mem_append.mp h with h2 | h2
      · exact escQ_mem h2
      · exact Or.inr (List.mem_singleton.mp h2)
  · exact Or.inl h

theorem joinComma_mem {c : Char} :
    ∀ {xs : List (List Char)}, c ∈ joinComma xs → (∃ x ∈ xs, c ∈ x) ∨ c = ',' := by
  intro xs
  induction xs with
  | nil => intro h; simp [joinComma] at h
  | cons x xs ih =>
    intro h
    cases xs with
    | nil =>
      exact Or.inl ⟨x, List.mem_singleton.mpr rfl, h⟩
    | cons y ys =>
      simp only [joinComma] at h
      rcases List.mem_append.mp h with h2 | h2
      · exact Or.inl ⟨x, List.mem_cons_self x _, h2⟩
      · rcases List.mem_cons.mp h2 with rfl | h2
        · exact Or.inr rfl
        · rcases ih h2 with ⟨z, hz, hcz⟩ | h3
          · exact Or.inl ⟨z, List.mem_cons_of_mem x hz, hcz⟩
          · exact Or.inr h3

theorem writeRow_safe (r : List String)
    (h : ∀ f ∈ r, ∀ c ∈ f.data, isLB c = false) :
    ∀ c ∈ writeRow r, isLB c = false := by
  intro c hc
  unfold writeRow at hc
  split at hc
  · rcases List.mem_cons.mp hc with rfl | hc
    · decide
    · rcases List.mem_cons.mp hc with rfl | hc
      · decide
      · exact absurd hc (List.not_mem_nil c)
  · rcases joinComma_mem hc with ⟨x, hx, hcx⟩ | rfl
    · obtain ⟨f, hf, rfl⟩ := List.mem_map.mp hx
      rcases quoteField_mem hcx with h1 | rfl
      · exact h f hf c h1
      · decide
    · decide

theorem splitlines_write_csv (rows : List (List String))
    (h : ∀ r ∈ rows, ∀ c ∈ writeRow r, isLB c = false) :
    splitlinesAux ((rows.map (fun r => writeRow r ++ ['\r', '\n'])).flatten) [] false =
      rows.map writeRow := by
  induction rows with
  | nil => rfl
  | cons r rows ih =>
    simp only [List.map_cons, List.flatten_cons, List.append_assoc, List.cons_append,
      List.nil_append]
    rw [splitlinesAux_append (writeRow r) _ (h r (List.mem_cons_self r rows)) []]
    rw [ih (fun x hx => h x (List.mem_cons_of_mem r hx))]
    simp

theorem needsQuote_false {f : String} (h : needsQuote f = false) :
    ∀ c ∈ f.data, c ≠ ',' ∧ c ≠ '"' ∧ c ≠ '\r' ∧ c ≠ '\n' := by
  intro c hc
  unfold needsQuote at h
  rw [List.any_eq_false] at h
  have h2 := h c hc
  simp only [Bool.or_eq_true, beq_iff_eq, not_or] at h2
  tauto

theorem runLine_inField_append (cs : List Char) (h : ∀ c ∈ cs, c ≠ ',') :
    ∀ (row : List String) (field tail : List Char),
      runLine .inField row field (cs ++ tail) =
        runLine .inField row (field ++ cs) tail := by
  induction cs with
  | nil => intro row field tail; simp
  | cons c cs ih =>
    intro row field tail
    have hc := h c (List.mem_cons_self c cs)
    rw [List.cons_append]
    simp only [runLine, if_neg hc]
    rw [ih (fun x hx => h x (List.mem_cons_of_mem c hx)) row (field ++ [c]) tail]
    simp

theorem runLine_inQuoted_escQ (fs : List Char) :
    ∀ (row : List String) (field tail : List Char),
      runLine .inQuoted row field (escQ fs ++ tail) =
        runLine .inQuoted row (field ++ fs) tail := by
  induction fs with
  | nil => intro row field tail; simp [escQ]
  | cons c fs ih =>
    intro row field tail
    by_cases hc : c = '"'
    · subst hc
      simp only [escQ, if_pos rfl, List.cons_append]
      show runLine .inQuoted row (field ++ ['"']) (escQ fs ++ tail) = _
      rw [ih row (field ++ ['"']) tail]
      simp
    · simp only [escQ, if_neg hc, List.cons_append]
      simp only [runLine]
      rw [if_neg hc, ih row (field ++ [c]) tail]
      simp

theorem runLine_field (f : String) (row : List String) :
    (∀ rest, runLine .startField row [] (quoteField f ++ ',' :: rest) =
       runLine .startField (row ++ [f]) [] rest) ∧
    runLine .startField row [] (quoteField f) = .done (row ++ [f]) := by
  by_cases hq : needsQuote f = true
  · have key : ∀ tail, runLine .startField row [] (quoteField f ++ tail) =
        runLine .quoteInQuoted row f.data tail := by
      intro tail
      simp only [quoteField, if_pos hq, List.cons_append]
      show runLine .inQuoted row [] ((escQ f.data ++ ['"']) ++ tail) = _
      rw [List.append_assoc, List.singleton_append]
      rw [runLine_inQuoted_escQ f.data row [] ('"' :: tail)]
      show runLine .quoteInQuoted row ([] ++ f.data) tail = _
      rw [List.nil_append]
    constructor
    · intro rest
      rw [key (',' :: rest)]
      show runLine .startField (row ++ [String.mk f.data]) [] rest = _
      rw [mk_data]
    · rw [show quoteField f = quoteField f ++ [] from (List.append_nil _).symm, key []]
      show LineRes.done (row ++ [String.mk f.data]) = _
      rw [mk_data]
  · have hq2 : needsQuote f = false := by
      cases hnq : needsQuote f
      · rfl
      · exact absurd hnq hq
    have hnc := needsQuote_false hq2
    cases hfd : f.data with
    | nil =>
      have hmkf : String.mk ([] : List Char) = f := by rw [← hfd]
      constructor
      · intro rest
        simp only [quoteField, if_neg hq, hfd, List.nil_append]
        show runLine .startField (row ++ [String.mk []]) [] rest = _
        rw [hmkf]
      · simp only [quoteField, if_neg hq, hfd]
        show LineRes.done (row ++ [String.mk []]) = _
        rw [hmkf]
    | cons c cs =>
      have hcmem : c ∈ f.data := by rw [hfd]; exact List.mem_cons_self c cs
      have hc1 : c ≠ ',' := (hnc c hcmem).1
      have hc2 : c ≠ '"' := (hnc c hcmem).2.1
      have key : ∀ tail, runLine .startField row [] (quoteField f ++ tail) =
          runLine .inField row f.data tail := by
        intro tail
        simp only [quoteField, if_neg hq, hfd, List.cons_append]
        simp only [runLine]
        rw [if_neg hc2, if_neg hc1, List.nil_append]
        have hcs : ∀ x ∈ cs, x ≠ ',' := by
          intro x hx
          exact (hnc x (by rw [hfd]; exact List.mem_cons_of_mem c hx)).1
        rw [runLine_inField_append cs hcs row [c] tail]
        rw [List.singleton_append, ← hfd]
      constructor
      · intro rest
        rw [key (',' :: rest)]
        show runLine .startField (row ++ [String.mk f.data]) [] rest = _
        rw [mk_data]
      · rw [show quoteField f = quoteField f ++ [] from (List.append_nil _).symm, key []]
        show LineRes.done (row ++ [String.mk f.data]) = _
        rw [mk_data]

theorem runLine_row (r : List String) (hr : r ≠ []) :
    ∀ row, runLine .startField row [] (joinComma (r.map quoteField)) =
      .done (row ++ r) := by
  induction r with
  | nil => exact absurd rfl hr
  | cons f r ih =>
    intro row
    cases r with
    | nil =>
      simp only [List.map_cons, List.map_nil, joinComma]
      exact (runLine_field f row).2
    | cons f2 r2 =>
      simp only [List.map_cons, joinComma]
      rw [(runLine_field f row).1 (joinComma (quoteField f2 :: r2.map quoteField))]
      have := ih (by simp) (row ++ [f])
      simp only [List.map_cons] at this
      rw [this]
      simp

theorem runLine_writeRow (r : List String) (hr : r ≠ []) :
    runLine .startField [] [] (writeRow r) = .done r := by
  by_cases h1 : r = [""]
  · subst h1; rfl
  · unfold writeRow
    rw [if_neg h1]
    simpa using runLine_row r hr []

theorem writeRow_ne_nil (r : List String) (hr : r ≠ []) : writeRow r ≠ [] := by
  by_cases h1 : r = [""]
  · subst h1; decide
  · unfold writeRow
    rw [if_neg h1]
    cases r with
    | nil => exact absurd rfl hr
    | cons f r2 =>
      cases r2 with
      | nil =>
        simp only [List.map_cons, List.map_nil, joinComma]
        unfold quoteField
        split
        · simp
        · intro hdata
          apply h1
          have hf : f = "" := by rw [← mk_data f, hdata]
          rw [hf]
      | cons f2 r3 =>
        simp only [List.map_cons, joinComma]
        simp

theorem parseAux_writeRows (rows : List (List String)) :
    parseAux (rows.map writeRow) none = rows := by
  induction rows with
  | nil => rfl
  | cons r rows ih =>
    by_cases hr : r = []
    · subst hr
      simp only [List.map_cons, parseAux]
      rw [if_pos (by decide : (writeRow []).isEmpty = true), ih]
    · simp only [List.map_cons, parseAux]
      rw [if_neg (by simpa [List.isEmpty_iff] using writeRow_ne_nil r hr),
        runLine_writeRow r hr, ih]

theorem parse_write_roundtrip (rows : List (List String))
    (h : ∀ r ∈ rows, ∀ f ∈ r, ∀ c ∈ f.data, isLB c = false) :
    parse_csv (splitlines (write_csv rows)) = rows := by
  unfold parse_csv splitlines write_csv
  rw [data_mk]
  rw [splitlines_write_csv rows (fun r hr => writeRow_safe r (h r hr))]
  rw [List.map_map]
  rw [show (String.data ∘ String.mk) = id from funext data_mk, List.map_id]
  exact parseAux_writeRows rows

/-! ## Characters of parsed rows -/

theorem safeRow_append (row : List String) (field : List Char)
    (hrow : ∀ f ∈ row, ∀ c ∈ f.data, isLB c = false)
    (hfield : ∀ c ∈ field, isLB c = false) :
    ∀ f ∈ row ++ [String.mk field], ∀ c ∈ f.data, isLB c = false := by
  intro f hf
  rcases List.mem_append.mp hf with h | h
  · exact hrow f h
  · rw [List.mem_singleton.mp h]
    exact hfield

theorem runLine_safe (l : List Char) :
    ∀ (m : Mode) (row : List String) (field : List Char),
      (∀ c ∈ l, isLB c = false) →
      (∀ f ∈ row, ∀ c ∈ f.data, isLB c = false) →
      (∀ c ∈ field, isLB c = false) →
      (∀ r, runLine m row field l = .done r →
         ∀ f ∈ r, ∀ c ∈ f.data, isLB c = false) ∧
      (∀ row2 field2, runLine m row field l = .cont row2 field2 →
         (∀ f ∈ row2, ∀ c ∈ f.data, isLB c = false) ∧
         (∀ c ∈ field2, isLB c = false)) := by
  induction l with
  | nil =>
    intro m row field _ hrow hfield
    constructor
    · intro r hr
      cases m with
      | inQuoted => simp [runLine] at hr
      | startField =>
        simp only [runLine] at hr
        injection hr with h
        exact h ▸ safeRow_append row field hrow hfield
      | inField =>
        simp only [runLine] at hr
        injection hr with h
        exact h ▸ safeRow_append row field hrow hfield
      | quoteInQuoted =>
        simp only [runLine] at hr
        injection hr with h
        exact h ▸ safeRow_append row field hrow hfield
    · intro row2 field2 hr
      cases m with
      | inQuoted =>
        simp only [runLine] at hr
        injection hr with h1 h2
        exact ⟨h1 ▸ hrow, h2 ▸ hfield⟩
      | startField => simp [runLine] at hr
      | inField => simp [runLine] at hr
      | quoteInQuoted => simp [runLine] at hr
  | cons c cs ih =>
    intro m row field hl hrow hfield
    have hc : isLB c = false := hl c (List.mem_cons_self c cs)
    have hcs : ∀ x ∈ cs, isLB x = false :=
      fun x hx => hl x (List.mem_cons_of_mem c hx)
    have hfc : ∀ c2, isLB c2 = false → ∀ x ∈ field ++ [c2], isLB x = false := by
      intro c2 hc2 x hx
      rcases List.mem_append.mp hx with h | h
      · exact hfield x h
      · rw [List.mem_singleton.mp h]; exact hc2
    have hemp : ∀ x ∈ ([] : List Char), isLB x = false := by
      intro x hx; cases hx
    cases m with
    | startField =>
      by_cases h1 : c = '"'
      · simp only [runLine]
        rw [if_pos h1]
        exact ih .inQuoted row field hcs hrow hfield
      · by_cases h2 : c = ','
        · simp only [runLine]
          rw [if_neg h1, if_pos h2]
          exact ih .startField (row ++ [String.mk field]) []
            hcs (safeRow_append row field hrow hfield) hemp
        · simp only [runLine]
          rw [if_neg h1, if_neg h2]
          exact ih .inField row (field ++ [c]) hcs hrow (hfc c hc)
    | inField =>
      by_cases h2 : c = ','
      · simp only [runLine]
        rw [if_pos h2]
        exact ih .startField (row ++ [String.mk field]) []
          hcs (safeRow_append row field hrow hfield) hemp
      · simp only [runLine]
        rw [if_neg h2]
        exact ih .inField row (field ++ [c]) hcs hrow (hfc c hc)
    | inQuoted =>
      by_cases h1 : c = '"'
      · simp only [runLine]
        rw [if_pos h1]
        exact ih .quoteInQuoted row field hcs hrow hfield
      · simp only [runLine]
        rw [if_neg h1]
        exact ih .inQuoted row (field ++ [c]) hcs hrow (hfc c hc)
    | quoteInQuoted =>
      by_cases h1 : c = '"'
      · simp only [runLine]
        rw [if_pos h1]
        exact ih .inQuoted row (field ++ ['"']) hcs hrow (hfc '"' (by decide))
      · by_cases h2 : c = ','
        · simp only [runLine]
          rw [if_neg h1, if_pos h2]
          exact ih .startField (row ++ [String.mk field]) []
            hcs (safeRow_append row field hrow hfield) hemp
        · simp only [runLine]
          rw [if_neg h1, if_neg h2]
          exact ih .inField row (field ++ [c]) hcs hrow (hfc c hc)

theorem parseAux_safe (ls : List (List Char)) :
    ∀ (st : Option (List String × List Char)),
      (∀ l ∈ ls, ∀ c ∈ l, isLB c = false) →
      (∀ row field, st = some (row, field) →
        (∀ f ∈ row, ∀ c ∈ f.data, isLB c = false) ∧
        (∀ c ∈ field, isLB c = false)) →
      ∀ r ∈ parseAux ls st, ∀ f ∈ r, ∀ c ∈ f.data, isLB c = false := by
  induction ls with
  | nil =>
    intro st hls hst r hr
    cases st with
    | none => simp [parseAux] at hr
    | some p =>
      obtain ⟨row, field⟩ := p
      simp only [parseAux] at hr
      rw [List.mem_singleton.mp hr]
      exact safeRow_append row field (hst row field rfl).1 (hst row field rfl).2
  | cons l ls ih =>
    intro st hls hst r hr
    have hl : ∀ c ∈ l, isLB c = false := hls l (List.mem_cons_self l ls)
    have hls2 : ∀ x ∈ ls, ∀ c ∈ x, isLB c = false :=
      fun x hx => hls x (List.mem_cons_of_mem l hx)
    have hemp : ∀ x ∈ ([] : List Char), isLB x = false := by
      intro x hx; cases hx
    have hempty : ∀ f ∈ ([] : List String), ∀ c ∈ f.data, isLB c = false := by
      intro f hf; cases hf
    cases st with
    | none =>
      simp only [parseAux] at hr
      split at hr
      · rcases List.mem_cons.mp hr with rfl | hr2
        · exact hempty
        · exact ih none hls2 (by intro row field h; cases h) r hr2
      · cases hrun : runLine .startField [] [] l with
        | done r2 =>
          rw [hrun] at hr
          rcases List.mem_cons.mp hr with rfl | hr2
          · exact (runLine_safe l .startField [] [] hl hempty hemp).1 r hrun
          · exact ih none hls2 (by intro row field h; cases h) r hr2
        | cont row2 field2 =>
          rw [hrun] at hr
          have hsafe := (runLine_safe l .startField [] [] hl hempty hemp).2 row2 field2 hrun
          exact ih (some (row2, field2)) hls2
            (by intro row field h; injection h with h2; cases h2; exact hsafe) r hr
    | some p =>
      obtain ⟨row, field⟩ := p
      have hsafe0 := hst row field rfl
      simp only [parseAux] at hr
      cases hrun : runLine .inQuoted row field l with
      | done r2 =>
        rw [hrun] at hr
        rcases List.mem_cons.mp hr with rfl | hr2
        · exact (runLine_safe l .inQuoted row field hl hsafe0.1 hsafe0.2).1 r hrun
        · exact ih none hls2 (by intro row2 field2 h; cases h) r hr2
      | cont row2 field2 =>
        rw [hrun] at hr
        have hsafe := (runLine_safe l .inQuoted row field hl hsafe0.1 hsafe0.2).2 row2 field2 hrun
        exact ih (some (row2, field2)) hls2
          (by intro row3 field3 h; injection h with h2; cases h2; exact hsafe) r hr

theorem splitlinesAux_safe (l : List Char) :
    ∀ (acc : List Char) (cr : Bool), (∀ c ∈ acc, isLB c = false) →
      ∀ line ∈ splitlinesAux l acc cr, ∀ c ∈ line, isLB c = false := by
  induction l with
  | nil =>
    intro acc cr hacc line hline
    simp only [splitlinesAux] at hline
    split at hline
    · cases hline
    · rw [List.mem_singleton.mp hline]; exact hacc
  | cons c l ih =>
    intro acc cr hacc line hline
    have hemp : ∀ x ∈ ([] : List Char), isLB x = false := by
      intro x hx; cases hx
    simp only [splitlinesAux] at hline
    split at hline
    · exact ih acc false hacc line hline
    · split at hline
      · rcases List.mem_cons.mp hline with rfl | h2
        · exact hacc
        · exact ih [] true hemp line h2
      · split at hline
        · rcases List.mem_cons.mp hline with rfl | h2
          · exact hacc
          · exact ih [] false hemp line h2
        · rename_i hnotLB
          refine ih (acc ++ [c]) false ?_ line hline
          intro x hx
          rcases List.mem_append.mp hx with h | h
          · exact hacc x h
          · rw [List.mem_singleton.mp h]
            simpa using hnotLB

theorem parse_csv_safe (txt : String) :
    ∀ r ∈ parse_csv (splitlines txt), ∀ f ∈ r, ∀ c ∈ f.data, isLB c = false := by
  unfold parse_csv splitlines
  intro r hr
  refine parseAux_safe _ none ?_ (by intro row field h; cases h) r hr
  intro l hl
  rw [List.map_map] at hl
  obtain ⟨l2, hl2, rfl⟩ := List.mem_map.mp hl
  intro c hc
  exact splitlinesAux_safe txt.data [] false (by intro x hx; cases hx) l2 hl2 c hc

/-! ## Evaluation lemmas for the column transformations -/

theorem get?_getD {r : List String} {idx : Nat} (h : idx < r.length) :
    r.get? idx = some (r.getD idx "") := by
  rw [List.getD_eq_get?]
  cases hg : r.get? idx with
  | none => rw [List.get?_eq_none] at hg; omega
  | some v => rfl

theorem contains_mem {v : String} {l : List String}
    (h : l.contains v = true) : v ∈ l :=
  List.elem_iff.mp h

theorem mem_contains {v : String} {l : List String} (h : v ∈ l) :
    l.contains v = true :=
  List.elem_iff.mpr h

theorem bikesLoop_all_ok (idx : Nat) :
    ∀ rows : List (List String),
      (∀ r ∈ rows, ∃ v, r.get? idx = some v ∧ v ∈ possible_values) →
      bikesLoop idx rows = .ok (rows, 0) := by
  intro rows
  induction rows with
  | nil => intro _; rfl
  | cons row rest ih =>
    intro h
    obtain ⟨v, hv, hvp⟩ := h row (List.mem_cons_self row rest)
    simp only [bikesLoop, hv]
    rw [if_pos hvp, ih (fun r hr => h r (List.mem_cons_of_mem row hr))]
    simp [pyStrEqInt]

theorem bikesLoop_ok_inv (idx : Nat) :
    ∀ rows rows2 ct, bikesLoop idx rows = .ok (rows2, ct) →
      rows2 = rows ∧ ct = 0 ∧
      ∀ r ∈ rows, ∃ v, r.get? idx = some v ∧ v ∈ possible_values := by
  intro rows
  induction rows with
  | nil =>
    intro rows2 ct h
    simp only [bikesLoop] at h
    cases h
    exact ⟨rfl, rfl, by intro r hr; cases hr⟩
  | cons row rest ih =>
    intro rows2 ct h
    simp only [bikesLoop] at h
    cases hv : row.get? idx with
    | none => simp only [hv] at h; cases h
    | some v =>
      simp only [hv] at h
      by_cases hvp : v ∈ possible_values
      · rw [if_pos hvp] at h
        simp only [pyStrEqInt, Bool.false_eq_true, if_false] at h
        cases hbl : bikesLoop idx rest with
        | error e => simp only [hbl] at h; cases h
        | ok p2 =>
          obtain ⟨rest2, ct2⟩ := p2
          simp only [hbl] at h
          cases h
          obtain ⟨h1, h2, h3⟩ := ih rest2 ct2 hbl
          refine ⟨by rw [h1], by rw [h2], ?_⟩
          intro r hr
          rcases List.mem_cons.mp hr with rfl | hr2
          · exact ⟨v, hv, hvp⟩
          · exact h3 r hr2
      · rw [if_neg hvp] at h
        cases h

theorem bikesLoop_find_none (idx : Nat) (rows : List (List String))
    (hlen : ∀ r ∈ rows, idx < r.length)
    (hf : rows.find? (fun r => !(possible_values.contains (r.getD idx ""))) = none) :
    bikesLoop idx rows = .ok (rows, 0) := by
  refine bikesLoop_all_ok idx rows ?_
  intro r hr
  have hok := List.find?_eq_none.mp hf r hr
  refine ⟨r.getD idx "", get?_getD (hlen r hr), ?_⟩
  apply contains_mem
  cases hc : possible_values.contains (r.getD idx "")
  · exact absurd (by rw [hc]; rfl) hok
  · rfl

theorem bikesLoop_first_bad (idx : Nat) :
    ∀ (rows : List (List String)) (r0 : List String),
      (∀ r ∈ rows, idx < r.length) →
      rows.find? (fun r => !(possible_values.contains (r.getD idx ""))) = some r0 →
      bikesLoop idx rows = .error (.fieldValue (r0.getD idx "")) := by
  intro rows
  induction rows with
  | nil => intro r0 _ h; simp at h
  | cons row rest ih =>
    intro r0 hlen hf
    have hget : row.get? idx = some (row.getD idx "") :=
      get?_getD (hlen row (List.mem_cons_self row rest))
    rw [List.find?_cons] at hf
    cases hbad : (!(possible_values.contains (row.getD idx ""))) with
    | true =>
      rw [hbad] at hf
      injection hf with hf2
      subst hf2
      have hnmem : row.getD idx "" ∉ possible_values := by
        intro hmem
        rw [mem_contains hmem] at hbad
        simp at hbad
      simp only [bikesLoop, hget]
      rw [if_neg hnmem]
    | false =>
      rw [hbad] at hf
      have hvp : row.getD idx "" ∈ possible_values := by
        apply contains_mem
        cases hc : possible_values.contains (row.getD idx "")
        · rw [hc] at hbad; simp at hbad
        · rfl
      simp only [bikesLoop, hget]
      rw [if_pos hvp,
        ih r0 (fun r hr => hlen r (List.mem_cons_of_mem row hr)) hf]

theorem indexOf_concat_self (l : List String) (a : String) (h : a ∉ l) :
    (l ++ [a]).indexOf a = l.length := by
  induction l with
  | nil => simp [List.indexOf_cons]
  | cons b l ih =>
    have hba : (b == a) = false := by
      rw [beq_eq_false_iff_ne]
      intro hb
      exact h (hb ▸ List.mem_cons_self b l)
    simp [List.indexOf_cons, hba, ih (fun hm => h (List.mem_cons_of_mem b hm))]

/-- Unfolding of `add_bikes_allowed` once the parse of the input is known. -/
theorem add_bikes_eq (txt : String) (exists_ok : Bool) (header : List String)
    (rows : List (List String))
    (hp : parse_csv (splitlines txt) = header :: rows) :
    add_bikes_allowed txt exists_ok =
      if "bikes_allowed" ∈ header then
        if exists_ok then
          match bikesLoop (header.indexOf "bikes_allowed") rows with
          | .error e => .error e
          | .ok (rows2, ct) =>
            if rows.length = 0 then .error .zeroDivision
            else .ok (write_csv (header :: rows2), some (ct, rows.length))
        else .error (.existingColumn "bikes_allowed")
      else
        .ok (write_csv ((header ++ ["bikes_allowed"]) :: rows.map (fun r => r ++ ["1"])),
             none) := by
  simp only [add_bikes_allowed, hp]

/-- Unfolding of `change_location_type` once the parse of the input is known. -/
theorem change_loc_eq (txt : String) (header : List String)
    (rows : List (List String))
    (hp : parse_csv (splitlines txt) = header :: rows) :
    change_location_type txt =
      if "location_type" ∈ header then
        match locLoop (header.indexOf "location_type") rows with
        | .error e => .error e
        | .ok (rows2, ct) =>
          if rows.length = 0 then .error .zeroDivision
          else .ok (write_csv (header :: rows2), some (ct, rows.length))
      else .ok (write_csv (header :: rows), none) := by
  simp only [change_location_type, hp]

/-! ## Pipeline lemmas -/

theorem findMod_assign_self (mods : Mods) (name : String) (f : Mod) :
    findMod (assign mods name f) name = some f := by
  induction mods with
  | nil => simp [assign, findMod]
  | cons p rest ih =>
    obtain ⟨k, g⟩ := p
    by_cases h : k = name
    · simp [assign, findMod, h]
    · simp [assign, findMod, h, ih]

theorem stepO_filename {mods : Mods} {e e' : Entry}
    (h : stepO mods e = some e') : e'.filename = e.filename := by
  unfold stepO entryStep at h
  cases hf : findMod mods e.filename with
  | none => simp only [hf] at h; cases h; rfl
  | some f =>
    simp only [hf] at h
    cases hd : decodeNL e.bytes with
    | none => simp only [hd] at h; cases h
    | some s =>
      simp only [hd] at h
      cases hr : f s with
      | error err => simp only [hr] at h; cases h
      | ok o =>
        simp only [hr] at h
        cases o with
        | none => simp at h
        | some t => simp only [] at h; cases h; rfl

theorem modify_ok_filterMap {mods : Mods} :
    ∀ {src tgt : List Entry}, modify_zip_file mods src = .ok tgt →
      tgt = src.filterMap (stepO mods) := by
  intro src
  induction src with
  | nil => intro tgt h; cases h; rfl
  | cons e rest ih =>
    intro tgt h
    unfold modify_zip_file at h
    cases hs : entryStep mods e with
    | error err => rw [hs] at h; cases h
    | ok o =>
      rw [hs] at h
      cases o with
      | none =>
        simp only [List.filterMap_cons, stepO, hs]
        exact ih h
      | some e' =>
        cases hr : modify_zip_file mods rest with
        | error err => rw [hr] at h; cases h
        | ok tl =>
          rw [hr] at h
          cases h
          simp only [List.filterMap_cons, stepO, hs]
          rw [ih hr]

theorem modify_ok_no_error {mods : Mods} :
    ∀ {src tgt : List Entry}, modify_zip_file mods src = .ok tgt →
      ∀ e ∈ src, ∃ r, entryStep mods e = .ok r := by
  intro src
  induction src with
  | nil => intro tgt _ e he; cases he
  | cons e rest ih =>
    intro tgt h e₁ he₁
    unfold modify_zip_file at h
    cases hs : entryStep mods e with
    | error err => rw [hs] at h; cases h
    | ok o =>
      rw [hs] at h
      rcases List.mem_cons.mp he₁ with rfl | hmem
      · exact ⟨o, hs⟩
      · cases o with
        | none => exact ih h e₁ hmem
        | some e' =>
          cases hr : modify_zip_file mods rest with
          | error err => rw [hr] at h; cases h
          | ok tl => exact ih hr e₁ hmem

theorem modify_append_error {mods : Mods} {err : Err} :
    ∀ {pre : List Entry} {e : Entry} (post : List Entry),
      (∀ x ∈ pre, ∃ r, entryStep mods x = .ok r) →
      entryStep mods e = .error err →
      modify_zip_file mods (pre ++ e :: post) = .error err := by
  intro pre
  induction pre with
  | nil =>
    intro e post _ he
    simp only [List.nil_append, modify_zip_file, he]
  | cons x rest ih =>
    intro e post hpre he
    obtain ⟨r, hr⟩ := hpre x (List.mem_cons_self x rest)
    have hrest : ∀ y ∈ rest, ∃ r, entryStep mods y = .ok r :=
      fun y hy => hpre y (List.mem_cons_of_mem x hy)
    simp only [List.cons_append, modify_zip_file, hr]
    cases r with
    | none => exact ih post hrest he
    | some x' =>
      rw [show rest.append (e :: post) = rest ++ e :: post from rfl, ih post hrest he]

theorem filterMap_stepO_names (mods : Mods) :
    ∀ src : List Entry,
      (src.filterMap (stepO mods)).map Entry.filename =
        (src.filter (fun e => (stepO mods e).isSome)).map Entry.filename := by
  intro src
  induction src with
  | nil => rfl
  | cons e rest ih =>
    cases hs : stepO mods e with
    | none => simp [List.filterMap_cons, List.filter_cons, hs, ih]
    | some e' =>
      simp [List.filterMap_cons, List.filter_cons, hs, ih, stepO_filename hs]

/-! ## Claim theorems: pipeline (C4, C6, C7, C10) -/

/-- C6 (confirmed).  On a successful run the target archive is exactly the
per-entry image of the source: the entries of the source minus those whose
chain signalled deletion, names in the same relative order, every one
either a byte-identical copy (unregistered name) or the result of its
registered chain (decoded, transformed, re-encoded). -/
theorem modify_zip_target_exact (mods : Mods) (src tgt : List Entry)
    (h : modify_zip_file mods src = .ok tgt) :
    tgt = src.filterMap (stepO mods) ∧
    tgt.map Entry.filename =
      (src.filter (fun e => (stepO mods e).isSome)).map Entry.filename ∧
    (∀ e ∈ src, ∃ r, entryStep mods e = .ok r) ∧
    (∀ e' ∈ tgt, ∃ e ∈ src, e'.filename = e.filename ∧
      (e'.bytes = e.bytes ∨
       ∃ f s t, findMod mods e.filename = some f ∧ decodeNL e.bytes = some s ∧
         f s = .ok (some t) ∧ e'.bytes = utf8Encode t)) := by
  have h1 := modify_ok_filterMap h
  refine ⟨h1, ?_, modify_ok_no_error h, ?_⟩
  · rw [h1]; exact filterMap_stepO_names mods src
  · intro e' he'
    rw [h1] at he'
    obtain ⟨e, hmem, hstep⟩ := List.mem_filterMap.mp he'
    refine ⟨e, hmem, stepO_filename hstep, ?_⟩
    unfold stepO entryStep at hstep
    cases hf : findMod mods e.filename with
    | none =>
      simp only [hf] at hstep; cases hstep; exact Or.inl rfl
    | some f =>
      simp only [hf] at hstep
      cases hd : decodeNL e.bytes with
      | none => simp only [hd] at hstep; cases hstep
      | some s =>
        simp only [hd] at hstep
        cases hr : f s with
        | error err => simp only [hr] at hstep; cases hstep
        | ok o =>
          simp only [hr] at hstep
          cases o with
          | none => simp at hstep
          | some t =>
            simp only [] at hstep
            cases hstep
            exact Or.inr ⟨f, s, t, rfl, rfl, hr, rfl⟩

/-- Witness for C6 on a concrete two-entry archive with one registered
transformation: the target is the computed per-entry image. -/
theorem modify_zip_target_exact_witness :
    ([⟨"a.txt", [90], 8⟩, ⟨"b.bin", [0], 8⟩] : List Entry) =
      ([⟨"a.txt", [104, 105], 0⟩, ⟨"b.bin", [0], 0⟩] : List Entry).filterMap
        (stepO (compose [] "a.txt" (fun _ => .ok (some "Z")))) :=
  (modify_zip_target_exact (compose [] "a.txt" (fun _ => .ok (some "Z")))
    [⟨"a.txt", [104, 105], 0⟩, ⟨"b.bin", [0], 0⟩]
    [⟨"a.txt", [90], 8⟩, ⟨"b.bin", [0], 8⟩] rfl).1

/-- C4 (corrected).  An entry whose name has no registered chain is written
to the target with the same name and byte-identical content — but with
`compress_type` fixed to `8` (deflate), not the source entry's setting. -/
theorem untouched_entry_copied_deflate (mods : Mods) (src tgt : List Entry)
    (e : Entry) (h : modify_zip_file mods src = .ok tgt) (he : e ∈ src)
    (hn : findMod mods e.filename = none) :
    (⟨e.filename, e.bytes, 8⟩ : Entry) ∈ tgt := by
  rw [modify_ok_filterMap h]
  refine List.mem_filterMap.mpr ⟨e, he, ?_⟩
  unfold stepO entryStep
  rw [hn]

/-- Witness for C4: a stored (`compress_type=0`) entry is copied with its
bytes intact but written with `compress_type=8`. -/
theorem untouched_entry_copied_deflate_witness :
    (⟨"stops.txt", [104], 8⟩ : Entry) ∈ ([⟨"stops.txt", [104], 8⟩] : List Entry) :=
  untouched_entry_copied_deflate [] [⟨"stops.txt", [104], 0⟩]
    [⟨"stops.txt", [104], 8⟩] ⟨"stops.txt", [104], 0⟩ rfl
    (List.mem_singleton.mpr rfl) rfl

/-- Counterexample for C4 as stated: the source entry uses compression
setting `0` (stored), yet the pipeline writes it with `8` (deflate), so the
compression setting is not preserved. -/
theorem untouched_entry_compression_changed :
    modify_zip_file [] [⟨"stops.txt", [104], 0⟩] =
      .ok [⟨"stops.txt", [104], 8⟩] ∧
    (⟨"stops.txt", [104], 8⟩ : Entry).compressType ≠
      (⟨"stops.txt", [104], 0⟩ : Entry).compressType :=
  ⟨rfl, by decide⟩

/-- C7 (confirmed).  Registering `A` then `B` for a fresh name yields the
chain `helper A B`: on inputs where `A` returns text the chain is `B`
applied to `A`'s output; where `A` signals deletion the chain signals
deletion without consulting `B` (the result is independent of the second
transformation), and every entry of that name is absent from a successful
run's target archive. -/
theorem compose_chain_semantics (mods : Mods) (name : String) (A B : Mod)
    (h : findMod mods name = none) :
    ∃ chain, findMod (compose (compose mods name A) name B) name = some chain ∧
      (∀ c t, A c = .ok (some t) → chain c = B t) ∧
      (∀ c, A c = .ok none → chain c = .ok none ∧
        ∀ B₂ : Mod, helper A B₂ c = .ok none) ∧
      (∀ src tgt, modify_zip_file (compose (compose mods name A) name B) src = .ok tgt →
        (∀ e ∈ src, e.filename = name → ∃ s, decodeNL e.bytes = some s ∧ A s = .ok none) →
        ∀ e' ∈ tgt, e'.filename ≠ name) := by
  have h1 : compose mods name A = assign mods name A := by
    unfold compose; rw [h]
  have h2 : compose (compose mods name A) name B =
      assign (assign mods name A) name (helper A B) := by
    rw [h1]; unfold compose; rw [findMod_assign_self]
  refine ⟨helper A B, by rw [h2, findMod_assign_self], ?_, ?_, ?_⟩
  · intro c t hc
    unfold helper; rw [hc]
  · intro c hc
    exact ⟨by unfold helper; rw [hc], fun B₂ => by unfold helper; rw [hc]⟩
  · intro src tgt hrun hdel e' he' hne
    obtain ⟨e, hmem, hstep⟩ :=
      List.mem_filterMap.mp (by rw [← modify_ok_filterMap hrun]; exact he')
    have hename : e.filename = name := by rw [← stepO_filename hstep, hne]
    obtain ⟨s, hs, hA⟩ := hdel e hmem hename
    unfold stepO entryStep at hstep
    rw [hename] at hstep
    have hh : helper A B s = .ok none := by unfold helper; rw [hA]
    simp only [h2, findMod_assign_self, hs, hh] at hstep
    cases hstep

/-- Witness for C7: with two concrete transformations registered for a
fresh name, the stored chain is their composition on an input where the
first succeeds. -/
theorem compose_chain_semantics_witness :
    ∃ chain,
      findMod (compose (compose ([] : Mods) "t.txt" (fun s => .ok (some (s ++ "!"))))
        "t.txt" (fun s => .ok (some (s ++ "?")))) "t.txt" = some chain ∧
      chain "x" = .ok (some "x!?") := by
  obtain ⟨chain, h1, h2, -, -⟩ :=
    compose_chain_semantics [] "t.txt" (fun s => .ok (some (s ++ "!")))
      (fun s => .ok (some (s ++ "?"))) rfl
  exact ⟨chain, h1, by rw [h2 "x" "x!" rfl]; rfl⟩

/-- C10 (confirmed).  An entry registered for deletion is still decoded as
UTF-8 before the constant delete function is consulted: if its bytes are
not valid UTF-8 the run aborts with a decode error (given that the entries
before it processed without error), instead of the entry being silently
omitted. -/
theorem delete_entry_decode_first (mods : Mods) (name : String)
    (pre post : List Entry) (bytes : List Nat) (ct : Nat)
    (hpre : ∀ x ∈ pre, ∃ r, entryStep (assign mods name delete_fun) x = .ok r)
    (hdec : utf8Decode? bytes = none) :
    modify_zip_file (assign mods name delete_fun)
      (pre ++ ⟨name, bytes, ct⟩ :: post) = .error .decodeError := by
  refine modify_append_error post hpre ?_
  unfold entryStep
  have hd : decodeNL bytes = none := by unfold decodeNL; rw [hdec]; rfl
  rw [findMod_assign_self, hd]

/-- Witness for C10: a single-entry archive whose entry is registered for
deletion but holds the invalid UTF-8 byte `0xFF` aborts with a decode
error. -/
theorem delete_entry_decode_first_witness :
    modify_zip_file (assign [] "calendar.txt" delete_fun)
      [⟨"calendar.txt", [255], 0⟩] = .error .decodeError :=
  delete_entry_decode_first [] "calendar.txt" [] [] [255] 0
    (fun x hx => absurd hx (List.not_mem_nil x)) rfl

/-! ## Claim theorems: closed evaluations (C1, C2, counterexamples) -/

/-- C1 (code bug).  On the spec's Scenario 3 table the column values
`["", "0", "1", "2"]` are left entirely unchanged and the report says 0 of
4 rows (0%) were rewritten: the source compares the string cell with the
integer `0` (`if value == 0:`), which is never true in Python, so the
documented rewriting of undefined values never happens. -/
theorem add_bikes_undefined_not_rewritten :
    add_bikes_allowed "id,bikes_allowed\na,\nb,0\nc,1\nd,2" true =
      .ok ("id,bikes_allowed\r\na,\r\nb,0\r\nc,1\r\nd,2\r\n", some (0, 4)) ∧
    percentage 0 4 = 0 ∧ percentage 0 4 ≠ 50 := by
  refine ⟨rfl, ?_, ?_⟩ <;> norm_num [percentage]

/-- C2 (code bug).  Two offending quotes sharing the flanking character
`b` in `a"b"c`: the regex consumes `b` with the first match, so only the
first quote is doubled (the claim predicts `a""b""c`).  A quote flanked by
a caret is never doubled because the source's character class `[^,^"^\n]`
literally excludes `^`. -/
theorem escape_quotes_regex_behavior :
    escape_double_quotes "a\"b\"c" = ("a\"\"b\"c", 1) ∧
    ("a\"\"b\"c" : String) ≠ "a\"\"b\"\"c" ∧
    escape_double_quotes "x\"^" = ("x\"^", 0) :=
  ⟨rfl, by decide, rfl⟩

/-- Counterexample for C3 as stated: with no `location_type` column the
function does not return its input character-for-character — the table is
re-serialised with `"\r\n"` line terminators. -/
theorem change_location_type_not_identity :
    change_location_type "a" = .ok ("a\r\n", none) ∧ ("a\r\n" : String) ≠ "a" :=
  ⟨rfl, by decide⟩

/-- Counterexample for C5 as stated: a table whose header contains
`bikes_allowed` and which has zero data rows triggers neither of the two
claimed failure conditions, yet the call fails (with the division-by-zero
of the percentage report) instead of succeeding. -/
theorem add_bikes_empty_table_division :
    add_bikes_allowed "bikes_allowed" true = .error .zeroDivision := rfl

/-- Counterexample for C8 as stated: on the header-only table `"id"` the
first application succeeds (appending the column), but applying the
function to its own output fails with a division-by-zero, so the second
application does not yield the same result as the first. -/
theorem add_bikes_not_idempotent_header_only :
    add_bikes_allowed "id" true = .ok ("id,bikes_allowed\r\n", none) ∧
    add_bikes_allowed "id,bikes_allowed\r\n" true = .error .zeroDivision :=
  ⟨rfl, rfl⟩


/-! ## Claim theorems: column transformations (C3, C5, C8, C9) -/

/-- C9 (confirmed).  On a table with a header row and zero data rows,
`add_bikes_allowed` (column present, `existsOk=true`) and
`change_location_type` (column present) both fail with the
division-by-zero of the percentage report instead of succeeding with zero
changes. -/
theorem empty_table_division_by_zero :
    (∀ txt header, parse_csv (splitlines txt) = [header] →
       "bikes_allowed" ∈ header →
       add_bikes_allowed txt true = .error .zeroDivision) ∧
    (∀ txt header, parse_csv (splitlines txt) = [header] →
       "location_type" ∈ header →
       change_location_type txt = .error .zeroDivision) := by
  constructor
  · intro txt header hp hmem
    rw [add_bikes_eq txt true header [] hp, if_pos hmem]
    rfl
  · intro txt header hp hmem
    rw [change_loc_eq txt header [] hp, if_pos hmem]
    rfl

/-- Witness for C9: the single-line tables `"bikes_allowed"` and
`"location_type"`. -/
theorem empty_table_division_by_zero_witness :
    add_bikes_allowed "bikes_allowed" true = .error .zeroDivision ∧
    change_location_type "location_type" = .error .zeroDivision :=
  ⟨empty_table_division_by_zero.1 "bikes_allowed" ["bikes_allowed"] rfl
     (List.mem_singleton.mpr rfl),
   empty_table_division_by_zero.2 "location_type" ["location_type"] rfl
     (List.mem_singleton.mpr rfl)⟩

/-- C3 (corrected).  With no `location_type` column the function returns
the reparse-and-reserialize of its input with no value changed and no
change statistics; in particular the output is character-identical to the
input whenever the input is already in the writer's canonical form
(`"\r\n"` line terminators, minimal quoting), i.e. is `write_csv` of a
table whose fields contain no line-break characters. -/
theorem change_location_type_no_column_reserialize (header : List String)
    (rest : List (List String))
    (hsafe : ∀ r ∈ header :: rest, ∀ f ∈ r, ∀ c ∈ f.data, isLB c = false)
    (hno : "location_type" ∉ header) :
    change_location_type (write_csv (header :: rest)) =
      .ok (write_csv (header :: rest), none) := by
  rw [change_loc_eq (write_csv (header :: rest)) header rest
    (parse_write_roundtrip (header :: rest) hsafe), if_neg hno]

/-- Witness for C3: a concrete canonical table is returned untouched. -/
theorem change_location_type_no_column_reserialize_witness :
    change_location_type "a,b\r\nc,d\r\n" = .ok ("a,b\r\nc,d\r\n", none) :=
  change_location_type_no_column_reserialize ["a", "b"] [["c", "d"]]
    (by decide) (by decide)

/-- C5 (corrected).  Complete success/failure case analysis of
`add_bikes_allowed` on a table whose data rows are long enough for the
`bikes_allowed` column when it is present: the column-exists error when
`existsOk` is false, the field-value error naming the first offending
value, unconditional success when the column is absent — and additionally,
a division-by-zero failure when the column is present, `existsOk` is true,
all values are valid and there are zero data rows (a case the claim's
"fails exactly" enumeration misses). -/
theorem add_bikes_failure_cases (txt : String) (exists_ok : Bool)
    (header : List String) (rows : List (List String))
    (hp : parse_csv (splitlines txt) = header :: rows)
    (hlen : "bikes_allowed" ∈ header →
      ∀ r ∈ rows, header.indexOf "bikes_allowed" < r.length) :
    ("bikes_allowed" ∉ header →
       add_bikes_allowed txt exists_ok =
         .ok (write_csv ((header ++ ["bikes_allowed"]) ::
           rows.map (fun r => r ++ ["1"])), none)) ∧
    ("bikes_allowed" ∈ header → exists_ok = false →
       add_bikes_allowed txt exists_ok = .error (.existingColumn "bikes_allowed")) ∧
    (∀ r0, "bikes_allowed" ∈ header → exists_ok = true →
       rows.find? (fun r => !(possible_values.contains
         (r.getD (header.indexOf "bikes_allowed") ""))) = some r0 →
       add_bikes_allowed txt exists_ok =
         .error (.fieldValue (r0.getD (header.indexOf "bikes_allowed") ""))) ∧
    ("bikes_allowed" ∈ header → exists_ok = true →
       rows.find? (fun r => !(possible_values.contains
         (r.getD (header.indexOf "bikes_allowed") ""))) = none →
       rows = [] →
       add_bikes_allowed txt exists_ok = .error .zeroDivision) ∧
    ("bikes_allowed" ∈ header → exists_ok = true →
       rows.find? (fun r => !(possible_values.contains
         (r.getD (header.indexOf "bikes_allowed") ""))) = none →
       rows ≠ [] →
       add_bikes_allowed txt exists_ok =
         .ok (write_csv (header :: rows), some (0, rows.length))) := by
  refine ⟨?_, ?_, ?_, ?_, ?_⟩
  · intro hno
    rw [add_bikes_eq txt exists_ok header rows hp, if_neg hno]
  · intro hmem hok
    rw [add_bikes_eq txt exists_ok header rows hp, if_pos hmem, hok]
    rfl
  · intro r0 hmem hok hf
    rw [add_bikes_eq txt exists_ok header rows hp, if_pos hmem, hok,
      bikesLoop_first_bad (header.indexOf "bikes_allowed") rows r0 (hlen hmem) hf]
    rfl
  · intro hmem hok hf h0
    subst h0
    rw [add_bikes_eq txt exists_ok header [] hp, if_pos hmem, hok]
    rfl
  · intro hmem hok hf hne
    rw [add_bikes_eq txt exists_ok header rows hp, if_pos hmem, hok,
      bikesLoop_find_none (header.indexOf "bikes_allowed") rows (hlen hmem) hf]
    show (if rows.length = 0 then (Except.error Err.zeroDivision) else
      .ok (write_csv (header :: rows), some (0, rows.length))) = _
    rw [if_neg (fun h => hne (List.length_eq_zero.mp h))]

/-- Witness for C5: a table with an invalid `bikes_allowed` value `"5"`
fails with the field-value error naming it. -/
theorem add_bikes_failure_cases_witness :
    add_bikes_allowed "id,bikes_allowed\r\nx,5" true = .error (.fieldValue "5") :=
  (add_bikes_failure_cases "id,bikes_allowed\r\nx,5" true
    ["id", "bikes_allowed"] [["x", "5"]] rfl (by decide)).2.2.1
    ["x", "5"] (by decide) rfl rfl

/-- C8 (corrected).  `addBikesAllowed` with `existsOk=true` is idempotent
on every table that has at least one data row and whose data rows all have
exactly the header's column count: if the first application succeeds with
output `out`, applying the function to `out` succeeds with the same output
(and reports zero rewritten rows).  (Without those two side conditions
idempotence fails: a header-only table and a ragged table are
counterexamples.) -/
theorem add_bikes_idempotent (txt out : String) (rep : Option (Nat × Nat))
    (header : List String) (rows : List (List String))
    (hp : parse_csv (splitlines txt) = header :: rows)
    (hne : rows ≠ [])
    (hrect : ∀ r ∈ rows, r.length = header.length)
    (h1 : add_bikes_allowed txt true = .ok (out, rep)) :
    add_bikes_allowed out true = .ok (out, some (0, rows.length)) := by
  have hsafe : ∀ r ∈ header :: rows, ∀ f ∈ r, ∀ c ∈ f.data, isLB c = false := by
    intro r hr
    exact parse_csv_safe txt r (by rw [hp]; exact hr)
  have hlen0 : ¬ (rows.length = 0) := fun h => hne (List.length_eq_zero.mp h)
  have heval := add_bikes_eq txt true header rows hp
  by_cases hmem : "bikes_allowed" ∈ header
  · rw [if_pos hmem] at heval
    replace heval : add_bikes_allowed txt true =
        match bikesLoop (header.indexOf "bikes_allowed") rows with
        | .error e => .error e
        | .ok (rows2, ct) =>
          if rows.length = 0 then .error .zeroDivision
          else .ok (write_csv (header :: rows2), some (ct, rows.length)) := heval
    cases hbl : bikesLoop (header.indexOf "bikes_allowed") rows with
    | error e =>
      simp only [hbl] at heval
      rw [heval] at h1
      cases h1
    | ok p =>
      obtain ⟨rows2, ct⟩ := p
      obtain ⟨hre, hct, hvals⟩ := bikesLoop_ok_inv _ rows rows2 ct hbl
      rw [hre, hct] at hbl
      simp only [hbl] at heval
      rw [if_neg hlen0] at heval
      rw [heval] at h1
      injection h1 with h2
      obtain ⟨ho, hrep⟩ := Prod.mk.inj h2
      subst ho
      have hp2 : parse_csv (splitlines (write_csv (header :: rows))) = header :: rows :=
        parse_write_roundtrip _ hsafe
      have heval2 := add_bikes_eq _ true header rows hp2
      rw [if_pos hmem] at heval2
      replace heval2 : add_bikes_allowed (write_csv (header :: rows)) true =
          match bikesLoop (header.indexOf "bikes_allowed") rows with
          | .error e => .error e
          | .ok (rows2, ct) =>
            if rows.length = 0 then .error .zeroDivision
            else .ok (write_csv (header :: rows2), some (ct, rows.length)) := heval2
      simp only [hbl] at heval2
      rw [if_neg hlen0] at heval2
      exact heval2
  · rw [if_neg hmem] at heval
    rw [heval] at h1
    injection h1 with h2
    obtain ⟨ho, hrep⟩ := Prod.mk.inj h2
    subst ho
    have hba : ∀ c ∈ ("bikes_allowed" : String).data, isLB c = false := by decide
    have hone : ∀ c ∈ ("1" : String).data, isLB c = false := by decide
    have hsafe2 : ∀ r ∈ (header ++ ["bikes_allowed"]) :: rows.map (fun r => r ++ ["1"]),
        ∀ f ∈ r, ∀ c ∈ f.data, isLB c = false := by
      intro r hr f hf
      rcases List.mem_cons.mp hr with rfl | hr2
      · rcases List.mem_append.mp hf with h3 | h3
        · exact hsafe header (List.mem_cons_self _ _) f h3
        · rw [List.mem_singleton.mp h3]; exact hba
      · obtain ⟨r2, hr2m, rfl⟩ := List.mem_map.mp hr2
        rcases List.mem_append.mp hf with h3 | h3
        · exact hsafe r2 (List.mem_cons_of_mem _ hr2m) f h3
        · rw [List.mem_singleton.mp h3]; exact hone
    have hp2 : parse_csv (splitlines (write_csv ((header ++ ["bikes_allowed"]) ::
        rows.map (fun r => r ++ ["1"])))) =
        (header ++ ["bikes_allowed"]) :: rows.map (fun r => r ++ ["1"]) :=
      parse_write_roundtrip _ hsafe2
    have hmem2 : "bikes_allowed" ∈ header ++ ["bikes_allowed"] :=
      List.mem_append.mpr (Or.inr (List.mem_singleton.mpr rfl))
    have hidx : (header ++ ["bikes_allowed"]).indexOf "bikes_allowed" = header.length :=
      indexOf_concat_self header "bikes_allowed" hmem
    have heval2 := add_bikes_eq _ true (header ++ ["bikes_allowed"])
      (rows.map (fun r => r ++ ["1"])) hp2
    rw [if_pos hmem2] at heval2
    replace heval2 : add_bikes_allowed
        (write_csv ((header ++ ["bikes_allowed"]) :: rows.map (fun r => r ++ ["1"]))) true =
        match bikesLoop ((header ++ ["bikes_allowed"]).indexOf "bikes_allowed")
            (rows.map (fun r => r ++ ["1"])) with
        | .error e => .error e
        | .ok (rows2, ct) =>
          if (rows.map (fun r => r ++ ["1"])).length = 0 then .error .zeroDivision
          else .ok (write_csv ((header ++ ["bikes_allowed"]) :: rows2),
            some (ct, (rows.map (fun r => r ++ ["1"])).length)) := heval2
    have hbl2 : bikesLoop ((header ++ ["bikes_allowed"]).indexOf "bikes_allowed")
        (rows.map (fun r => r ++ ["1"])) = .ok (rows.map (fun r => r ++ ["1"]), 0) := by
      apply bikesLoop_all_ok
      intro r2 hr2
      obtain ⟨r3, hr3m, rfl⟩ := List.mem_map.mp hr2
      refine ⟨"1", ?_, by decide⟩
      rw [hidx, ← hrect r3 hr3m]
      exact List.get?_concat_length r3 "1"
    rw [hbl2] at heval2
    simp only [List.length_map] at heval2
    rw [if_neg hlen0] at heval2
    exact heval2

/-- Witness for C8: a rectangular one-data-row table; the second
application returns the first application's output unchanged. -/
theorem add_bikes_idempotent_witness :
    add_bikes_allowed "id,x,bikes_allowed\r\na,b,1\r\n" true =
      .ok ("id,x,bikes_allowed\r\na,b,1\r\n", some (0, 1)) :=
  add_bikes_idempotent "id,x\r\na,b" "id,x,bikes_allowed\r\na,b,1\r\n" none
    ["id", "x"] [["a", "b"]] rfl (by decide) (by decide) rfl

end GtfsMod
